import Mathlib

/-!
Verification of the `robo` URL routing library.

Go strings are modelled as lists of runes (`List Char`); all offsets are
counted in runes rather than bytes, consistently on both the pattern and
the path side, which preserves the semantics of the Go code for every
well-formed UTF-8 string.  Captured parameters (`[]string` holding
alternating names and values in the Go code) are modelled as lists of
name/value pairs.
-/

namespace Robo

abbrev Str := List Char
abbrev Buf := List (Str × Str)

/-- The pattern-compilation error taxonomy of `matching.go` / `pattern.go`.
`panicIndexRange` models the Go runtime panic that `readCharset` /
`compileCharsetFragment` raise when a `-` follows an open range whose
accumulator holds a single value (index `len(o)-2 = -1`). -/
inductive CompileError
  | emptyPattern
  | emptyParameter
  | emptyCharset
  | charsetHasSlash
  | illegalWildcard
  | impossibleRange
  | unexpectedHyphen
  | unexpectedLBracket
  | unexpectedRBracket
  | missingRBrace
  | missingRBracket
  | panicIndexRange
  deriving DecidableEq, Repr

/-- One compiled unit of a pattern (the `fragment` struct, shared shape of
both snapshots).  A literal fragment carries its stored text `s` and the
byte-count field `n` of `matching.go` (which the compilers always set to
the length of `s`); the charset of an inclusive fragment is kept as a list
of inclusive `(low, high)` code-point pairs, mirroring the even-length
flat `[]rune` of the Go code. -/
inductive Fragment
  | literal (s : Str) (n : Nat)
  | exclusive (name : Str) (excl : List Char)
  | inclusive (name : Str) (cs : List (Nat × Nat))
  | wildcard
  deriving DecidableEq, Repr

deriving instance DecidableEq for Except

/-- Membership of a rune in a charset: some pair `(lo, hi)` has
`lo ≤ r ≤ hi` (the inner `for j := 0; j < len(f.r); j += 2` loop). -/
def inCharset (cs : List (Nat × Nat)) (c : Char) : Bool :=
  cs.any fun p => decide (p.1 ≤ c.toNat) && decide (c.toNat ≤ p.2)

/-- Number of leading runes up to (excluding) the first rune present in the
exclusion list — the scan of the exclusive-fragment case of both
`fragment.matchPrefix` and `fragment.match`. -/
def scanExcl (excl : List Char) : Str → Nat
  | [] => 0
  | c :: cs => if c ∈ excl then 0 else scanExcl excl cs + 1

/-- Number of leading runes that are all inside the charset — the scan of
the inclusive-fragment case of both matchers. -/
def scanIncl (cs : List (Nat × Nat)) : Str → Nat
  | [] => 0
  | c :: p => if inCharset cs c then scanIncl cs p + 1 else 0

/-- One step of the pairwise adjacent-swap sort of `simplifyCharset`:
insert a pair into an already-sorted prefix, sifting it left past every
pair whose low bound is not strictly smaller (the inner `for j := i; j > 0;
j -= 2` loop, whose `break` condition is `a[j] > a[j-2]`). -/
def insertPair (x : Nat × Nat) : List (Nat × Nat) → List (Nat × Nat)
  | [] => [x]
  | y :: ys => if y.1 < x.1 then y :: insertPair x ys else x :: y :: ys

/-- The sorting pass of `simplifyCharset` (ascending by low bound). -/
def sortPairs (l : List (Nat × Nat)) : List (Nat × Nat) :=
  l.foldl (fun acc x => insertPair x acc) []

/-- The forward merging pass of `simplifyCharset`: `last` is the pair at
the write position (`a[w-2], a[w-1]`), the list holds the remaining pairs
at the read position.  A pair merges into `last` when
`a[r] <= a[w-2] && a[w-2] <= a[r+1]+1` or
`a[r] > a[w-2] && a[r]-1 <= a[w-1]` (the rune arithmetic rewritten over
`Nat` without underflow: `a[r]-1 <= a[w-1]` is `a[r] <= a[w-1]+1`). -/
def mergePairs (last : Nat × Nat) : List (Nat × Nat) → List (Nat × Nat)
  | [] => [last]
  | p :: ps =>
      if (p.1 ≤ last.1 ∧ last.1 ≤ p.2 + 1) ∨ (last.1 < p.1 ∧ p.1 ≤ last.2 + 1) then
        mergePairs (min p.1 last.1, max p.2 last.2) ps
      else last :: mergePairs p ps

/-- `simplifyCharset` (identical in both snapshots): sort the pairs by low
bound, then merge overlapping or adjacent pairs in one forward pass. -/
def simplifyCharset (l : List (Nat × Nat)) : List (Nat × Nat) :=
  match sortPairs l with
  | [] => []
  | x :: xs => mergePairs x xs

/-- The state machine of `readCharset` / `compileCharsetFragment`
(identical in both snapshots), running over the input after the opening
`[`.  The flat even/odd-length rune accumulator `o` of the Go code is
modelled as complete pairs (`rpairs`, most recent first) plus an optional
pending lower bound (`pending` is `some` exactly when `len(o)` is odd);
`e` is the escape flag, `i` the rune index inside the bracketed text.
On `]` it returns the simplified charset and the consumed length `i + 2`. -/
def charsetScan (e : Bool) (rpairs : List (Nat × Nat)) (pending : Option Nat)
    (i : Nat) : Str → Except CompileError (List (Nat × Nat) × Nat)
  | [] => .error .missingRBracket
  | r :: rest =>
      if e then
        match pending with
        | some x =>
            if r.toNat < x then .error .impossibleRange
            else charsetScan false ((x, r.toNat) :: rpairs) none (i + 1) rest
        | none => charsetScan false ((r.toNat, r.toNat) :: rpairs) none (i + 1) rest
      else if r = '\\' then charsetScan true rpairs pending (i + 1) rest
      else if r = '[' then .error .unexpectedLBracket
      else if r = ']' then
        match pending with
        | some _ => .error .unexpectedRBracket
        | none =>
            if rpairs.any (fun q => decide (q.1 ≤ 47) && decide (47 ≤ q.2)) then
              .error .charsetHasSlash
            else .ok (simplifyCharset rpairs.reverse, i + 2)
      else if r = '-' then
        match rpairs, pending with
        | [], none => .error .unexpectedHyphen
        | [], some _ => .error .panicIndexRange
        | q :: qs, some x =>
            if x = q.2 then charsetScan false (q :: qs) none (i + 1) rest
            else .error .unexpectedHyphen
        | q :: qs, none =>
            if q.2 = q.1 then charsetScan false qs (some q.1) (i + 1) rest
            else .error .unexpectedHyphen
      else
        match pending with
        | some x =>
            if r.toNat < x then .error .impossibleRange
            else charsetScan false ((x, r.toNat) :: rpairs) none (i + 1) rest
        | none => charsetScan false ((r.toNat, r.toNat) :: rpairs) none (i + 1) rest

/-- `readCharset` / `compileCharsetFragment`: entry checks (`len < 2`,
immediate `]`), then the scan over the text after `[`. -/
def compileCharset : Str → Except CompileError (List (Nat × Nat) × Nat)
  | [] => .error .missingRBracket
  | [_] => .error .missingRBracket
  | _ :: c :: rest =>
      if c = ']' then .error .emptyCharset
      else charsetScan false [] none 0 (c :: rest)

/-- Length of the literal run starting a pattern: stops at an unescaped
`*` or `{`; a backslash escapes the next rune and is itself kept. -/
def literalLen : Bool → Str → Nat
  | _, [] => 0
  | true, _ :: cs => literalLen false cs + 1
  | false, c :: cs =>
      if c = '\\' then literalLen true cs + 1
      else if c = '*' ∨ c = '{' then 0
      else literalLen false cs + 1

/-- `compileLiteralFragment` / `readLiteral`. -/
def compileLiteralFragment (p : Str) : Fragment × Nat :=
  let n := literalLen false p
  (.literal (p.take n) n, n)

/-- `compileWildcardFragment` / `readWildcard`. -/
def compileWildcardFragment (p : Str) : Except CompileError (Fragment × Nat) :=
  if p = ['*'] then .ok (.wildcard, 1) else .error .illegalWildcard

/-- How an exclusive-parameter fragment is assembled from the scanned name
and the pattern text following the closing `}` — the only point where the
two compiler snapshots differ.  `matching.go`: start from `['/']` and
append the next rune when it exists and is not `'/'`. -/
def mkExclM (name : Str) (rest : Str) : Fragment :=
  .exclusive name ('/' :: match rest with
    | c :: _ => if c ≠ '/' then [c] else []
    | [] => [])

/-- `pattern.go`: the next rune, when it exists and is not `'/'`, is
prepended before `'/'`. -/
def mkExclP (name : Str) (rest : Str) : Fragment :=
  .exclusive name (match rest with
    | c :: _ => if c = '/' then ['/'] else [c, '/']
    | [] => ['/'])

/-- The scan of `compileParameterFragment` / `readParameter` over the text
after the opening `{`, with escape flag `e`, the name accumulated so far
(`name = pattern[1:i]`), and `i` the index in the whole pattern.  The two
snapshots share this code verbatim except for the construction of the
exclusive fragment, supplied as `mk`. -/
def paramScan (mk : Str → Str → Fragment) (e : Bool) (name : Str) (i : Nat) :
    Str → Except CompileError (Fragment × Nat)
  | [] => .error .missingRBrace
  | c :: rest =>
      if e then paramScan mk false (name ++ [c]) (i + 1) rest
      else if c = '\\' then paramScan mk true (name ++ [c]) (i + 1) rest
      else if c = '[' then
        match compileCharset (c :: rest) with
        | .error err => .error err
        | .ok (chars, n) =>
            match (c :: rest).drop n with
            | '}' :: _ => .ok (.inclusive name chars, i + n + 1)
            | _ => .error .missingRBrace
      else if c = '}' then
        if i = 1 then .error .emptyParameter
        else .ok (mk name rest, i + 1)
      else paramScan mk false (name ++ [c]) (i + 1) rest

/-- `compileFragment` / `readFragment`, dispatching on the first rune.
The empty case is unreachable from the compiler loop (the Go code would
panic indexing `pattern[0]`). -/
def compileFragmentWith (mk : Str → Str → Fragment) (p : Str) :
    Except CompileError (Fragment × Nat) :=
  match p with
  | [] => .error .panicIndexRange
  | c :: _ =>
      if c = '*' then compileWildcardFragment p
      else if c = '{' then paramScan mk false [] 1 (p.drop 1)
      else .ok (compileLiteralFragment p)

theorem paramScan_lt {mk : Str → Str → Fragment} {e : Bool} {name : Str}
    {i : Nat} {p : Str} {f : Fragment} {m : Nat}
    (h : paramScan mk e name i p = .ok (f, m)) : i < m := by
  induction p generalizing e name i with
  | nil => simp [paramScan] at h
  | cons c rest ih =>
      unfold paramScan at h
      cases e with
      | true =>
          rw [if_pos rfl] at h
          have := ih h
          omega
      | false =>
          rw [if_neg Bool.false_ne_true] at h
          split at h
          · have := ih h
            omega
          · split at h
            · split at h
              · simp at h
              · split at h
                · rw [Except.ok.injEq, Prod.mk.injEq] at h
                  omega
                · simp at h
            · split at h
              · split at h
                · simp at h
                · rw [Except.ok.injEq, Prod.mk.injEq] at h
                  omega
              · have := ih h
                omega

theorem literalLen_pos (c : Char) (cs : Str) (h1 : ¬c = '*') (h2 : ¬c = '{') :
    0 < literalLen false (c :: cs) := by
  simp only [literalLen]
  by_cases hb : c = '\\'
  · simp [hb]
  · simp [hb, h1, h2]

theorem compileFragmentWith_pos {mk : Str → Str → Fragment} {p : Str}
    {f : Fragment} {n : Nat}
    (h : compileFragmentWith mk p = .ok (f, n)) : 0 < n := by
  unfold compileFragmentWith at h
  split at h
  · simp at h
  · rename_i c rest
    split at h
    · unfold compileWildcardFragment at h
      split at h
      · rw [Except.ok.injEq, Prod.mk.injEq] at h
        omega
      · simp at h
    · split at h
      · have := paramScan_lt h
        omega
      · rw [Except.ok.injEq] at h
        have hn : n = literalLen false (c :: rest) := by
          have := congrArg Prod.snd h
          simpa [compileLiteralFragment] using this.symm
        rename_i h1 h2
        have := literalLen_pos c rest h1 h2
        omega

/-- The fragment loop of `compileMatcher` / `compilePattern`: repeatedly
compile one fragment and drop the consumed prefix.  The loop is driven by
structural recursion on a fuel counter so that the kernel can evaluate it;
every fragment consumes at least one rune (`compileFragmentWith_pos`), so
a fuel of `p.length` is always sufficient (`compileRestWith_fuel`) and the
fuel-exhaustion case is unreachable from `compileMatcher`/`compilePattern`. -/
def compileRestWith (mk : Str → Str → Fragment) : Nat → Str →
    Except CompileError (List Fragment)
  | _, [] => .ok []
  | 0, _ :: _ => .error .panicIndexRange
  | fuel + 1, p =>
      match compileFragmentWith mk p with
      | .error e => .error e
      | .ok (f, n) =>
          match compileRestWith mk fuel (p.drop n) with
          | .error e => .error e
          | .ok fs => .ok (f :: fs)

/-- Any fuel of at least `p.length` gives the same result: the loop never
actually exhausts its fuel. -/
theorem compileRestWith_fuel (mk : Str → Str → Fragment) :
    ∀ fuel fuel' p, p.length ≤ fuel → p.length ≤ fuel' →
      compileRestWith mk fuel p = compileRestWith mk fuel' p := by
  intro fuel
  induction fuel using Nat.strong_induction_on with
  | _ fuel ih =>
      intro fuel' p hf hf'
      match p with
      | [] =>
          cases fuel <;> cases fuel' <;> rfl
      | c :: cs =>
          match fuel, fuel' with
          | f1 + 1, f2 + 1 =>
              rw [List.length_cons] at hf hf'
              cases hcf : compileFragmentWith mk (c :: cs) with
              | error e => simp [compileRestWith, hcf]
              | ok fn =>
                  obtain ⟨f, n⟩ := fn
                  have hn := compileFragmentWith_pos hcf
                  have hlen : ((c :: cs).drop n).length ≤ f1 := by
                    rw [List.length_drop, List.length_cons]
                    omega
                  have hlen' : ((c :: cs).drop n).length ≤ f2 := by
                    rw [List.length_drop, List.length_cons]
                    omega
                  have heq := ih f1 (by omega) f2 ((c :: cs).drop n) hlen hlen'
                  simp only [compileRestWith, hcf, heq]

/-- `compileMatcher` of `matching.go`. -/
def compileMatcher (p : Str) : Except CompileError (List Fragment) :=
  if p = [] then .error .emptyPattern else compileRestWith mkExclM p.length p

/-- `compilePattern` of `pattern.go`. -/
def compilePattern (p : Str) : Except CompileError (List Fragment) :=
  if p = [] then .error .emptyPattern else compileRestWith mkExclP p.length p

/-- `fragment.matchPrefix` of `matching.go`.  A result of `none` stands for
the Go return value `-1` (produced directly by the literal case, and by
`nonZero` wrapping a zero-length exclusive/inclusive match); `some (n, buf)`
stands for a non-negative consumed length `n` together with the extended
capture buffer. -/
def Fragment.matchPrefix : Fragment → Str → Buf → Option (Nat × Buf)
  | .literal s n, p, buf =>
      if p.length < n then none
      else if p.take n = s then some (n, buf) else none
  | .exclusive name excl, p, buf =>
      let i := scanExcl excl p
      if i = 0 then none else some (i, buf ++ [(name, p.take i)])
  | .inclusive name cs, p, buf =>
      let i := scanIncl cs p
      if i = 0 then none else some (i, buf ++ [(name, p.take i)])
  | .wildcard, p, buf => some (p.length, buf ++ [(['*'], p)])

/-- `fragmentMatcher.match` of `matching.go`: run the fragments left to
right, dropping the consumed prefix each time, and succeed only when the
whole input has been consumed at the end. -/
def matcherMatch : List Fragment → Str → Buf → Option Buf
  | [], p, buf => if p = [] then some buf else none
  | f :: fs, p, buf =>
      match f.matchPrefix p buf with
      | none => none
      | some (n, buf') => matcherMatch fs (p.drop n) buf'

/-- `fragment.match` of `pattern.go` (the older snapshot): returns the
consumed length (`0` doubling as the failure value for literals) together
with the extended buffer. -/
def Fragment.fmatch : Fragment → Str → Buf → Nat × Buf
  | .literal s _, p, buf =>
      if p.length < s.length then (0, [])
      else if p.take s.length = s then (s.length, buf) else (0, [])
  | .exclusive name excl, p, buf =>
      let i := scanExcl excl p
      (i, buf ++ [(name, p.take i)])
  | .inclusive name cs, p, buf =>
      let i := scanIncl cs p
      (i, buf ++ [(name, p.take i)])
  | .wildcard, p, buf => (p.length, buf ++ [(['*'], p)])

/-- `pattern.match` of `pattern.go`: additionally fails whenever the
remaining input is empty while fragments remain, or a fragment reports a
consumed length of `0`. -/
def patternMatch : List Fragment → Str → Buf → Option Buf
  | [], p, buf => if p = [] then some buf else none
  | f :: fs, p, buf =>
      if p = [] then none
      else
        let r := f.fmatch p buf
        if r.1 = 0 then none else patternMatch fs (p.drop r.1) r.2

theorem scanExcl_le (excl : List Char) (p : Str) : scanExcl excl p ≤ p.length := by
  induction p with
  | nil => simp [scanExcl]
  | cons c cs ih =>
      simp only [scanExcl, List.length_cons]
      split
      · omega
      · omega

theorem scanIncl_le (cs : List (Nat × Nat)) (p : Str) : scanIncl cs p ≤ p.length := by
  induction p with
  | nil => simp [scanIncl]
  | cons c p ih =>
      simp only [scanIncl, List.length_cons]
      split
      · omega
      · omega

/-- A fragment never reports more consumed runes than the input holds. -/
theorem matchPrefix_le {f : Fragment} {p : Str} {buf buf' : Buf} {n : Nat}
    (h : f.matchPrefix p buf = some (n, buf')) : n ≤ p.length := by
  cases f with
  | literal s m =>
      simp only [Fragment.matchPrefix] at h
      split at h
      · simp at h
      · split at h
        · rw [Option.some.injEq, Prod.mk.injEq] at h
          omega
        · simp at h
  | exclusive name excl =>
      simp only [Fragment.matchPrefix] at h
      split at h
      · simp at h
      · rw [Option.some.injEq, Prod.mk.injEq] at h
        have := scanExcl_le excl p
        omega
  | inclusive name cs =>
      simp only [Fragment.matchPrefix] at h
      split at h
      · simp at h
      · rw [Option.some.injEq, Prod.mk.injEq] at h
        have := scanIncl_le cs p
        omega
  | wildcard =>
      simp only [Fragment.matchPrefix, Option.some.injEq, Prod.mk.injEq] at h
      omega

/-- A fragment-by-fragment decomposition of a successful match: the input
splits into one chunk per fragment, each fragment (run at its position,
i.e. against its chunk followed by all later chunks) consumes exactly its
chunk, and the capture buffer is threaded left to right. -/
inductive ChunkedMatch : List Fragment → List Str → Buf → Buf → Prop
  | nil (buf : Buf) : ChunkedMatch [] [] buf buf
  | cons {f : Fragment} {fs : List Fragment} {chunk : Str} {chunks : List Str}
      {buf buf1 buf2 : Buf} :
      f.matchPrefix (chunk ++ chunks.flatten) buf = some (chunk.length, buf1) →
      ChunkedMatch fs chunks buf1 buf2 →
      ChunkedMatch (f :: fs) (chunk :: chunks) buf buf2

/-- C1: `fragmentMatcher.match` succeeds only by consuming the entire
input through its fragments in left-to-right order (first conjunct: every
success decomposes the input into per-fragment chunks covering all of it);
once the fragments are exhausted any leftover suffix fails (second
conjunct); the compiled pattern `/foo` matches `/foo` with no captured
parameters and does not match `/foo/` (remaining conjuncts). -/
theorem match_consumes_entire_input :
    (∀ (fs : List Fragment) (s : Str) (buf r : Buf),
        matcherMatch fs s buf = some r →
        ∃ chunks : List Str, s = chunks.flatten ∧ ChunkedMatch fs chunks buf r) ∧
    (∀ (s : Str) (buf : Buf), s ≠ [] → matcherMatch [] s buf = none) ∧
    compileMatcher "/foo".data = .ok [.literal "/foo".data 4] ∧
    matcherMatch [.literal "/foo".data 4] "/foo".data [] = some [] ∧
    matcherMatch [.literal "/foo".data 4] "/foo/".data [] = none := by
  refine ⟨?_, ?_, by decide, by decide, by decide⟩
  · intro fs
    induction fs with
    | nil =>
        intro s buf r h
        simp only [matcherMatch] at h
        split at h
        · rename_i hs
          rw [Option.some.injEq] at h
          exact ⟨[], by simp [hs], h ▸ ChunkedMatch.nil buf⟩
        · simp at h
    | cons f fs ih =>
        intro s buf r h
        simp only [matcherMatch] at h
        cases hm : f.matchPrefix s buf with
        | none => rw [hm] at h; simp at h
        | some nb =>
            obtain ⟨n, buf1⟩ := nb
            rw [hm] at h
            obtain ⟨chunks, hflat, hcm⟩ := ih (s.drop n) buf1 r h
            have hle := matchPrefix_le hm
            refine ⟨s.take n :: chunks, ?_, ?_⟩
            · simp only [List.flatten_cons, ← hflat, List.take_append_drop]
            · refine ChunkedMatch.cons ?_ hcm
              have h1 : s.take n ++ chunks.flatten = s := by
                rw [← hflat, List.take_append_drop]
              have h2 : (s.take n).length = n := by
                rw [List.length_take]
                omega
              rw [h1, h2]
              exact hm
  · intro s buf h
    simp [matcherMatch, h]

/-- Witness for C1: concrete instantiations of the two general conjuncts. -/
theorem match_consumes_entire_input_witness :
    (∃ chunks : List Str, "/foo".data = chunks.flatten ∧
        ChunkedMatch [.literal "/foo".data 4] chunks [] []) ∧
    matcherMatch [] ['x'] [] = none :=
  ⟨match_consumes_entire_input.1 [.literal "/foo".data 4] "/foo".data [] []
      (by decide),
   match_consumes_entire_input.2.1 ['x'] [] (by decide)⟩

/-- C7: a wildcard fragment always consumes the entire remaining input —
including the empty remainder — and appends the capture pair
`("*", remainder)`; concretely, the compiled pattern `/foo/*` matches the
path `/foo/` with the single capture `* = ""`. -/
theorem wildcard_consumes_remainder :
    (∀ (s : Str) (buf : Buf),
        Fragment.wildcard.matchPrefix s buf = some (s.length, buf ++ [(['*'], s)])) ∧
    compileMatcher "/foo/*".data = .ok [.literal "/foo/".data 5, .wildcard] ∧
    matcherMatch [.literal "/foo/".data 5, .wildcard] "/foo/".data [] =
      some [("*".data, [])] :=
  ⟨fun _ _ => rfl, by decide, by decide⟩

/-- C3 counterexample: the pattern `{a}/b` compiles to an exclusion
fragment (exclusion set `{'/'}`) followed by the literal `/b`.  Matched
against `/b`, whose first rune is in the exclusion set, the claim predicts
a zero-length capture `a = ""` followed by a successful literal match —
overall success.  The code instead fails the exclusion fragment
(`nonZero(0) = -1`) and rejects the whole path. -/
theorem exclusion_zero_capture_cex :
    compileMatcher "\x7ba\x7d/b".data =
      .ok [.exclusive "a".data "/".data, .literal "/b".data 2] ∧
    Fragment.matchPrefix (.exclusive "a".data "/".data) "/b".data [] = none ∧
    matcherMatch [.exclusive "a".data "/".data, .literal "/b".data 2]
      "/b".data [] = none := by
  refine ⟨by decide, by decide, by decide⟩

/-- C3 amended: when an exclusion parameter fragment is matched against a
non-empty remaining input whose first rune is in its exclusion set, the
scan length is `0`, `matchPrefix` turns it into the failure value
(`nonZero(0) = -1`, modelled as `none`), and the whole pattern match
fails — no zero-length capture is produced and matching does not proceed. -/
theorem exclusion_immediate_hit_fails (name : Str) (excl : List Char)
    (c : Char) (p : Str) (buf : Buf) (h : c ∈ excl) :
    Fragment.matchPrefix (.exclusive name excl) (c :: p) buf = none ∧
    ∀ fs : List Fragment,
      matcherMatch (Fragment.exclusive name excl :: fs) (c :: p) buf = none := by
  have hz : scanExcl excl (c :: p) = 0 := by
    simp [scanExcl, h]
  constructor
  · simp [Fragment.matchPrefix, hz]
  · intro fs
    simp [matcherMatch, Fragment.matchPrefix, hz]

/-- Witness for C3's amended theorem at the counterexample input. -/
theorem exclusion_immediate_hit_fails_witness :
    Fragment.matchPrefix (.exclusive "a".data "/".data) "/b".data [] = none ∧
    matcherMatch [.exclusive "a".data "/".data, .literal "/b".data 2]
      "/b".data [] = none :=
  ⟨(exclusion_immediate_hit_fails "a".data "/".data '/' "b".data [] (by decide)).1,
   (exclusion_immediate_hit_fails "a".data "/".data '/' "b".data [] (by decide)).2
      [.literal "/b".data 2]⟩

/-! ## Equivalence of the two compiler/matcher snapshots -/

/-- Correspondence between a fragment compiled by `pattern.go` and one
compiled by `matching.go` from the same pattern text: identical, except
that an exclusive fragment's exclusion list may order its (at most two)
runes differently — the lists are equal as sets. -/
def FragRel (f g : Fragment) : Prop :=
  match f, g with
  | .exclusive n1 e1, .exclusive n2 e2 => n1 = n2 ∧ ∀ c, c ∈ e1 ↔ c ∈ e2
  | f, g => f = g

/-- Well-formedness of compiled fragments: a literal fragment stores a
non-empty text and its cached length `n` equals the text's length. -/
def FragWF : Fragment → Prop
  | .literal s n => n = s.length ∧ s ≠ []
  | _ => True

theorem mkExcl_rel (name rest : Str) : FragRel (mkExclP name rest) (mkExclM name rest) := by
  cases rest with
  | nil => exact ⟨rfl, fun c => Iff.rfl⟩
  | cons c cs =>
      by_cases hc : c = '/'
      · subst hc
        have hP : mkExclP name ('/' :: cs) = .exclusive name ['/'] := by
          simp [mkExclP]
        have hM : mkExclM name ('/' :: cs) = .exclusive name ['/'] := by
          simp [mkExclM]
        rw [hP, hM]
        exact ⟨rfl, fun c => Iff.rfl⟩
      · have hP : mkExclP name (c :: cs) = .exclusive name [c, '/'] := by
          simp [mkExclP, hc]
        have hM : mkExclM name (c :: cs) = .exclusive name ['/', c] := by
          simp [mkExclM, hc]
        rw [hP, hM]
        refine ⟨rfl, fun d => ?_⟩
        simp only [List.mem_cons, List.not_mem_nil, or_false]
        tauto

theorem paramScan_rel :
    ∀ (rest : Str) (e : Bool) (name : Str) (i : Nat),
      (∃ err, paramScan mkExclP e name i rest = .error err ∧
              paramScan mkExclM e name i rest = .error err) ∨
      ∃ f g n, paramScan mkExclP e name i rest = .ok (f, n) ∧
               paramScan mkExclM e name i rest = .ok (g, n) ∧ FragRel f g := by
  intro rest
  induction rest with
  | nil =>
      intro e name i
      exact Or.inl ⟨.missingRBrace, rfl, rfl⟩
  | cons c cs ih =>
      intro e name i
      unfold paramScan
      cases e with
      | true =>
          rw [if_pos rfl, if_pos rfl]
          exact ih false (name ++ [c]) (i + 1)
      | false =>
          rw [if_neg Bool.false_ne_true, if_neg Bool.false_ne_true]
          by_cases h1 : c = '\\'
          · rw [if_pos h1, if_pos h1]
            exact ih true (name ++ [c]) (i + 1)
          · rw [if_neg h1, if_neg h1]
            by_cases h2 : c = '['
            · rw [if_pos h2, if_pos h2]
              cases hcs : compileCharset (c :: cs) with
              | error err => exact Or.inl ⟨err, rfl, rfl⟩
              | ok cn =>
                  obtain ⟨chars, n⟩ := cn
                  cases hdrop : (c :: cs).drop n with
                  | nil =>
                      refine Or.inl ⟨.missingRBrace, ?_, ?_⟩ <;> simp only [hdrop]
                  | cons d ds =>
                      by_cases hd : d = '}'
                      · subst hd
                        refine Or.inr ⟨.inclusive name chars, .inclusive name chars,
                          i + n + 1, ?_, ?_, rfl⟩ <;> simp only [hdrop]
                      · refine Or.inl ⟨.missingRBrace, ?_, ?_⟩ <;>
                          · simp only [hdrop]
                            split
                            · rename_i heq
                              rw [List.cons.injEq] at heq
                              exact absurd heq.1 hd
                            · rfl
            · rw [if_neg h2, if_neg h2]
              by_cases h3 : c = '}'
              · rw [if_pos h3, if_pos h3]
                by_cases h4 : i = 1
                · rw [if_pos h4, if_pos h4]
                  exact Or.inl ⟨.emptyParameter, rfl, rfl⟩
                · rw [if_neg h4, if_neg h4]
                  exact Or.inr ⟨mkExclP name cs, mkExclM name cs, i + 1,
                    rfl, rfl, mkExcl_rel name cs⟩
              · rw [if_neg h3, if_neg h3]
                exact ih false (name ++ [c]) (i + 1)

theorem literalLen_le : ∀ (p : Str) (e : Bool), literalLen e p ≤ p.length := by
  intro p
  induction p with
  | nil => intro e; cases e <;> simp [literalLen]
  | cons c cs ih =>
      intro e
      cases e with
      | true =>
          simp only [literalLen, List.length_cons]
          have := ih false
          omega
      | false =>
          simp only [literalLen, List.length_cons]
          split
          · have := ih true
            omega
          · split
            · omega
            · have := ih false
              omega

/-- The parameter scan only ever emits inclusive fragments or the
`mk`-built exclusive fragment. -/
theorem paramScan_wf {mk : Str → Str → Fragment}
    (hmk : ∀ name rest, FragWF (mk name rest)) :
    ∀ (q : Str) (e : Bool) (name : Str) (i : Nat) (f : Fragment) (n : Nat),
      paramScan mk e name i q = .ok (f, n) → FragWF f := by
  intro q
  induction q with
  | nil => intro e name i f n h; simp [paramScan] at h
  | cons d ds ih =>
      intro e name i f n h
      unfold paramScan at h
      cases e with
      | true =>
          rw [if_pos rfl] at h
          exact ih false (name ++ [d]) (i + 1) f n h
      | false =>
          rw [if_neg Bool.false_ne_true] at h
          split at h
          · exact ih true (name ++ [d]) (i + 1) f n h
          · split at h
            · split at h
              · simp at h
              · split at h
                · rw [Except.ok.injEq, Prod.mk.injEq] at h
                  rw [← h.1]
                  trivial
                · simp at h
            · split at h
              · split at h
                · simp at h
                · rw [Except.ok.injEq, Prod.mk.injEq] at h
                  rw [← h.1]
                  exact hmk name ds
              · exact ih false (name ++ [d]) (i + 1) f n h

/-- Every fragment a compiler emits is well-formed. -/
theorem compileFragmentWith_wf {mk : Str → Str → Fragment}
    (hmk : ∀ name rest, FragWF (mk name rest)) {p : Str} {f : Fragment} {n : Nat}
    (h : compileFragmentWith mk p = .ok (f, n)) : FragWF f := by
  unfold compileFragmentWith at h
  split at h
  · simp at h
  · rename_i c rest
    split at h
    · unfold compileWildcardFragment at h
      split at h
      · rw [Except.ok.injEq, Prod.mk.injEq] at h
        rw [← h.1]
        trivial
      · simp at h
    · split at h
      · exact paramScan_wf hmk ((c :: rest).drop 1) false [] 1 f n h
      · rename_i h1 h2
        rw [Except.ok.injEq] at h
        have hlen := literalLen_pos c rest h1 h2
        have hle := literalLen_le (c :: rest) false
        have hf : f = .literal ((c :: rest).take (literalLen false (c :: rest)))
            (literalLen false (c :: rest)) := by
          have := congrArg Prod.fst h
          simpa [compileLiteralFragment] using this.symm
        rw [hf]
        have hlt : ((c :: rest).take (literalLen false (c :: rest))).length =
            literalLen false (c :: rest) := by
          rw [List.length_take]
          omega
        refine ⟨hlt.symm, ?_⟩
        intro hemp
        rw [hemp] at hlt
        simp at hlt
        omega

theorem compileFragmentWith_rel (p : Str) :
    (∃ err, compileFragmentWith mkExclP p = .error err ∧
            compileFragmentWith mkExclM p = .error err) ∨
    ∃ f g n, compileFragmentWith mkExclP p = .ok (f, n) ∧
             compileFragmentWith mkExclM p = .ok (g, n) ∧ FragRel f g := by
  cases p with
  | nil => exact Or.inl ⟨.panicIndexRange, rfl, rfl⟩
  | cons c rest =>
      simp only [compileFragmentWith]
      by_cases h1 : c = '*'
      · rw [if_pos h1, if_pos h1]
        unfold compileWildcardFragment
        split
        · exact Or.inr ⟨.wildcard, .wildcard, 1, rfl, rfl, rfl⟩
        · exact Or.inl ⟨.illegalWildcard, rfl, rfl⟩
      · rw [if_neg h1, if_neg h1]
        by_cases h2 : c = '{'
        · rw [if_pos h2, if_pos h2]
          exact paramScan_rel ((c :: rest).drop 1) false [] 1
        · rw [if_neg h2, if_neg h2]
          exact Or.inr ⟨(compileLiteralFragment (c :: rest)).1,
            (compileLiteralFragment (c :: rest)).1,
            (compileLiteralFragment (c :: rest)).2, rfl, rfl, rfl⟩

theorem compileRestWith_rel :
    ∀ (fuel : Nat) (p : Str),
      (∃ err, compileRestWith mkExclP fuel p = .error err ∧
              compileRestWith mkExclM fuel p = .error err) ∨
      ∃ ps fs, compileRestWith mkExclP fuel p = .ok ps ∧
               compileRestWith mkExclM fuel p = .ok fs ∧
               List.Forall₂ FragRel ps fs := by
  intro fuel
  induction fuel with
  | zero =>
      intro p
      cases p with
      | nil => exact Or.inr ⟨[], [], rfl, rfl, .nil⟩
      | cons c cs => exact Or.inl ⟨.panicIndexRange, rfl, rfl⟩
  | succ fuel ih =>
      intro p
      cases p with
      | nil => exact Or.inr ⟨[], [], rfl, rfl, .nil⟩
      | cons c cs =>
          rcases compileFragmentWith_rel (c :: cs) with
            ⟨err, hP, hM⟩ | ⟨f, g, n, hP, hM, hfg⟩
          · refine Or.inl ⟨err, ?_, ?_⟩ <;> simp only [compileRestWith, hP, hM]
          · rcases ih ((c :: cs).drop n) with
              ⟨err, hP2, hM2⟩ | ⟨ps, fs, hP2, hM2, hrel⟩
            · refine Or.inl ⟨err, ?_, ?_⟩
              · simp only [compileRestWith, hP, hP2]
              · simp only [compileRestWith, hM, hM2]
            · refine Or.inr ⟨f :: ps, g :: fs, ?_, ?_, .cons hfg hrel⟩
              · simp only [compileRestWith, hP, hP2]
              · simp only [compileRestWith, hM, hM2]

theorem mkExclP_wf (name rest : Str) : FragWF (mkExclP name rest) := by
  unfold mkExclP
  cases rest with
  | nil => trivial
  | cons c cs => trivial

theorem compileRestWith_wf {mk : Str → Str → Fragment}
    (hmk : ∀ name rest, FragWF (mk name rest)) :
    ∀ (fuel : Nat) (p : Str) (fs : List Fragment),
      compileRestWith mk fuel p = .ok fs → ∀ f ∈ fs, FragWF f := by
  intro fuel
  induction fuel with
  | zero =>
      intro p fs h
      cases p with
      | nil =>
          rw [show compileRestWith mk 0 [] = .ok [] from rfl, Except.ok.injEq] at h
          subst h
          intro f hf
          simp at hf
      | cons c cs => simp [compileRestWith] at h
  | succ fuel ih =>
      intro p fs h
      cases p with
      | nil =>
          rw [show compileRestWith mk (fuel + 1) [] = .ok [] from rfl,
            Except.ok.injEq] at h
          subst h
          intro f hf
          simp at hf
      | cons c cs =>
          cases hcf : compileFragmentWith mk (c :: cs) with
          | error e => simp [compileRestWith, hcf] at h
          | ok fn =>
              obtain ⟨f0, n⟩ := fn
              simp only [compileRestWith, hcf] at h
              cases hrest : compileRestWith mk fuel ((c :: cs).drop n) with
              | error e => rw [hrest] at h; simp at h
              | ok fs' =>
                  rw [hrest, Except.ok.injEq] at h
                  subst h
                  intro f hf
                  rcases List.mem_cons.mp hf with rfl | hf'
                  · exact compileFragmentWith_wf hmk hcf
                  · exact ih ((c :: cs).drop n) fs' hrest f hf'

theorem fragRel_literal {s : Str} {m : Nat} {g : Fragment}
    (h : FragRel (.literal s m) g) : g = .literal s m := by
  cases g <;> simp [FragRel] at h <;> simp [h]

theorem fragRel_inclusive {name : Str} {cs : List (Nat × Nat)} {g : Fragment}
    (h : FragRel (.inclusive name cs) g) : g = .inclusive name cs := by
  cases g <;> simp [FragRel] at h <;> simp [h]

theorem fragRel_wildcard {g : Fragment} (h : FragRel .wildcard g) :
    g = .wildcard := by
  cases g with
  | wildcard => rfl
  | literal s n => simp [FragRel] at h
  | exclusive n e => simp [FragRel] at h
  | inclusive n cs => simp [FragRel] at h

theorem fragRel_exclusive {name : Str} {e1 : List Char} {g : Fragment}
    (h : FragRel (.exclusive name e1) g) :
    ∃ e2, g = .exclusive name e2 ∧ ∀ c, c ∈ e1 ↔ c ∈ e2 := by
  cases g with
  | exclusive n2 e2 =>
      obtain ⟨hn, hm⟩ := h
      exact ⟨e2, by rw [hn], hm⟩
  | literal s n => simp [FragRel] at h
  | inclusive n2 cs => simp [FragRel] at h
  | wildcard => simp [FragRel] at h

theorem scanExcl_congr {e1 e2 : List Char} (h : ∀ c, c ∈ e1 ↔ c ∈ e2) :
    ∀ p : Str, scanExcl e1 p = scanExcl e2 p := by
  intro p
  induction p with
  | nil => rfl
  | cons c cs ih =>
      simp only [scanExcl]
      by_cases hc : c ∈ e1
      · rw [if_pos hc, if_pos ((h c).mp hc)]
      · rw [if_neg hc, if_neg fun hx => hc ((h c).mpr hx), ih]

/-- Forward step agreement: whenever `pattern.go`'s fragment matcher
reports a non-zero consumed length, `matching.go`'s `matchPrefix` on the
related fragment reports the same length and buffer. -/
theorem fmatch_to_matchPrefix {f g : Fragment} (hrel : FragRel f g)
    (hwf : FragWF f) {p : Str} {buf buf' : Buf} {n : Nat}
    (h : f.fmatch p buf = (n, buf')) (hn : n ≠ 0) :
    g.matchPrefix p buf = some (n, buf') := by
  cases f with
  | literal s m =>
      rw [fragRel_literal hrel]
      obtain ⟨hm, hs⟩ := hwf
      simp only [Fragment.fmatch] at h
      split at h
      · rw [Prod.mk.injEq] at h
        omega
      · split at h
        · rename_i hlen htake
          rw [Prod.mk.injEq] at h
          simp only [Fragment.matchPrefix, hm]
          rw [if_neg hlen, if_pos htake]
          rw [h.1, h.2]
        · rw [Prod.mk.injEq] at h
          omega
  | exclusive name e1 =>
      obtain ⟨e2, hg, hmem⟩ := fragRel_exclusive hrel
      subst hg
      simp only [Fragment.fmatch] at h
      rw [Prod.mk.injEq] at h
      obtain ⟨h1, h2⟩ := h
      subst h1
      simp only [Fragment.matchPrefix, ← scanExcl_congr hmem p]
      rw [if_neg hn, h2]
  | inclusive name cs =>
      rw [fragRel_inclusive hrel]
      simp only [Fragment.fmatch] at h
      rw [Prod.mk.injEq] at h
      obtain ⟨h1, h2⟩ := h
      subst h1
      simp only [Fragment.matchPrefix]
      rw [if_neg hn, h2]
  | wildcard =>
      rw [fragRel_wildcard hrel]
      simp only [Fragment.fmatch] at h
      rw [Prod.mk.injEq] at h
      obtain ⟨h1, h2⟩ := h
      subst h1
      simp only [Fragment.matchPrefix]
      rw [h2]

/-- Backward step agreement for non-wildcard fragments: a successful
`matchPrefix` forces the same non-zero result from `fragment.match`, on a
necessarily non-empty input. -/
theorem matchPrefix_to_fmatch {f g : Fragment} (hrel : FragRel f g)
    (hwf : FragWF f) (hw : g ≠ .wildcard) {p : Str} {buf buf' : Buf} {n : Nat}
    (h : g.matchPrefix p buf = some (n, buf')) :
    f.fmatch p buf = (n, buf') ∧ n ≠ 0 ∧ p ≠ [] := by
  cases f with
  | literal s m =>
      rw [fragRel_literal hrel] at h
      obtain ⟨hm, hs⟩ := hwf
      simp only [Fragment.matchPrefix] at h
      split at h
      · simp at h
      · split at h
        · rename_i hlen htake
          rw [Option.some.injEq, Prod.mk.injEq] at h
          have hslen : s.length ≠ 0 := fun h0 => hs (List.eq_nil_of_length_eq_zero h0)
          subst hm
          refine ⟨?_, by omega, ?_⟩
          · simp only [Fragment.fmatch]
            rw [if_neg hlen, if_pos htake, h.1, h.2]
          · intro hp
            subst hp
            exact hs (by simpa using hlen)
        · simp at h
  | exclusive name e1 =>
      obtain ⟨e2, hg, hmem⟩ := fragRel_exclusive hrel
      subst hg
      simp only [Fragment.matchPrefix] at h
      split at h
      · simp at h
      · rename_i hi
        rw [Option.some.injEq, Prod.mk.injEq] at h
        rw [← scanExcl_congr hmem p] at h hi
        obtain ⟨h1, h2⟩ := h
        subst h1
        refine ⟨?_, hi, ?_⟩
        · simp only [Fragment.fmatch]
          rw [h2]
        · intro hp
          subst hp
          simp [scanExcl] at hi
  | inclusive name cs =>
      rw [fragRel_inclusive hrel] at h
      simp only [Fragment.matchPrefix] at h
      split at h
      · simp at h
      · rename_i hi
        rw [Option.some.injEq, Prod.mk.injEq] at h
        obtain ⟨h1, h2⟩ := h
        subst h1
        refine ⟨?_, hi, ?_⟩
        · simp only [Fragment.fmatch]
          rw [h2]
        · intro hp
          subst hp
          simp [scanIncl] at hi
  | wildcard => exact absurd (fragRel_wildcard hrel) hw

/-- Forward matcher agreement: every success of `pattern.match` is a
success of `fragmentMatcher.match` with identical captures. -/
theorem patternMatch_to_matcherMatch :
    ∀ {ps fs : List Fragment}, List.Forall₂ FragRel ps fs →
      (∀ f ∈ ps, FragWF f) →
      ∀ (s : Str) (buf r : Buf), patternMatch ps s buf = some r →
        matcherMatch fs s buf = some r := by
  intro ps fs hrel
  induction hrel with
  | nil => intro _ s buf r h; exact h
  | @cons f g ps fs hfg hrest ih =>
      intro hwf s buf r h
      simp only [patternMatch] at h
      split at h
      · simp at h
      · rcases hfm : Fragment.fmatch f s buf with ⟨n, buf2⟩
        rw [hfm] at h
        simp only at h
        split at h
        · simp at h
        · rename_i hn0
          have hm := fmatch_to_matchPrefix hfg
            (hwf f (List.mem_cons_self f ps)) hfm hn0
          simp only [matcherMatch, hm]
          exact ih (fun f' hf' => hwf f' (List.mem_cons_of_mem _ hf')) _ _ _ h

/-- Backward matcher agreement on wildcard-free compiled patterns. -/
theorem matcherMatch_to_patternMatch :
    ∀ {ps fs : List Fragment}, List.Forall₂ FragRel ps fs →
      (∀ f ∈ ps, FragWF f) → (∀ g ∈ fs, g ≠ .wildcard) →
      ∀ (s : Str) (buf r : Buf), matcherMatch fs s buf = some r →
        patternMatch ps s buf = some r := by
  intro ps fs hrel
  induction hrel with
  | nil => intro _ _ s buf r h; exact h
  | @cons f g ps fs hfg hrest ih =>
      intro hwf hnw s buf r h
      simp only [matcherMatch] at h
      cases hm : Fragment.matchPrefix g s buf with
      | none => rw [hm] at h; simp at h
      | some nb =>
          obtain ⟨n, buf2⟩ := nb
          rw [hm] at h
          obtain ⟨hfm, hn0, hp⟩ := matchPrefix_to_fmatch hfg
            (hwf f (List.mem_cons_self f ps))
            (hnw g (List.mem_cons_self g fs)) hm
          simp only [patternMatch, if_neg hp, hfm]
          rw [if_neg hn0]
          exact ih (fun f' hf' => hwf f' (List.mem_cons_of_mem _ hf'))
            (fun g' hg' => hnw g' (List.mem_cons_of_mem _ hg')) _ _ _ h

theorem compilePattern_wf {p : Str} {ps : List Fragment}
    (h : compilePattern p = .ok ps) : ∀ f ∈ ps, FragWF f := by
  unfold compilePattern at h
  split at h
  · simp at h
  · exact compileRestWith_wf mkExclP_wf p.length p ps h

theorem compile_rel {p : Str} {ps fs : List Fragment}
    (hP : compilePattern p = .ok ps) (hM : compileMatcher p = .ok fs) :
    List.Forall₂ FragRel ps fs := by
  unfold compilePattern at hP
  unfold compileMatcher at hM
  split at hP
  · simp at hP
  · rename_i hp
    rw [if_neg hp] at hM
    rcases compileRestWith_rel p.length p with ⟨err, h1, -⟩ | ⟨ps', fs', h1, h2, hrel⟩
    · rw [h1] at hP
      simp at hP
    · rw [h1, Except.ok.injEq] at hP
      rw [h2, Except.ok.injEq] at hM
      rw [← hP, ← hM]
      exact hrel

/-- C9 counterexample: both snapshots compile `/foo/*` to the same
fragment list, yet on the path `/foo/` the old `pattern.match` rejects
while the new `fragmentMatcher.match` accepts, with the capture `* = ""` —
the two snapshots are not equivalent as claimed. -/
theorem snapshot_equivalence_cex :
    compilePattern "/foo/*".data = .ok [.literal "/foo/".data 5, .wildcard] ∧
    compileMatcher "/foo/*".data = .ok [.literal "/foo/".data 5, .wildcard] ∧
    patternMatch [.literal "/foo/".data 5, .wildcard] "/foo/".data [] = none ∧
    matcherMatch [.literal "/foo/".data 5, .wildcard] "/foo/".data [] =
      some [("*".data, [])] := by
  refine ⟨by decide, by decide, by decide, by decide⟩

/-- C9 amended: the two snapshots agree on compilation — for every
pattern, the same error, or success on both sides with fragment lists
identical up to the ordering of exclusion sets (first conjunct).  On the
matching side, every success of `pattern.match` is a success of
`fragmentMatcher.match` with the same ordered captures (second conjunct),
and for compiled patterns containing no wildcard fragment the two
matchers agree exactly — verdict and captures — on every path (third
conjunct).  They diverge only when a wildcard fragment faces an empty
remainder, which `matching.go` accepts and `pattern.go` rejects. -/
theorem snapshot_equivalence :
    (∀ p : Str,
        (∃ e, compilePattern p = .error e ∧ compileMatcher p = .error e) ∨
        ∃ ps fs, compilePattern p = .ok ps ∧ compileMatcher p = .ok fs ∧
          List.Forall₂ FragRel ps fs) ∧
    (∀ (p : Str) (ps fs : List Fragment), compilePattern p = .ok ps →
        compileMatcher p = .ok fs →
        ∀ (s : Str) (buf r : Buf),
          patternMatch ps s buf = some r → matcherMatch fs s buf = some r) ∧
    ∀ (p : Str) (ps fs : List Fragment), compilePattern p = .ok ps →
      compileMatcher p = .ok fs → (∀ g ∈ fs, g ≠ .wildcard) →
      ∀ (s : Str) (buf : Buf), matcherMatch fs s buf = patternMatch ps s buf := by
  refine ⟨?_, ?_, ?_⟩
  · intro p
    by_cases hp : p = []
    · subst hp
      exact Or.inl ⟨.emptyPattern, rfl, rfl⟩
    · unfold compilePattern compileMatcher
      rw [if_neg hp, if_neg hp]
      exact compileRestWith_rel p.length p
  · intro p ps fs hP hM s buf r h
    exact patternMatch_to_matcherMatch (compile_rel hP hM)
      (compilePattern_wf hP) s buf r h
  · intro p ps fs hP hM hnw s buf
    cases hm : matcherMatch fs s buf with
    | some r =>
        rw [matcherMatch_to_patternMatch (compile_rel hP hM)
          (compilePattern_wf hP) hnw s buf r hm]
    | none =>
        cases hpm : patternMatch ps s buf with
        | none => rfl
        | some r =>
            have := patternMatch_to_matcherMatch (compile_rel hP hM)
              (compilePattern_wf hP) s buf r hpm
            rw [hm] at this
            cases this

/-- Witness for C9's amended theorem: forward agreement applied to the
compiled pattern `/foo` on the path `/foo`. -/
theorem snapshot_equivalence_witness :
    matcherMatch [.literal "/foo".data 4] "/foo".data [] = some [] :=
  snapshot_equivalence.2.1 "/foo".data [.literal "/foo".data 4]
    [.literal "/foo".data 4] (by decide) (by decide) "/foo".data [] []
    (by decide)

/-! ## Correctness of the charset normalization -/

theorem insertPair_mem (x a : Nat × Nat) (l : List (Nat × Nat)) :
    a ∈ insertPair x l ↔ a = x ∨ a ∈ l := by
  induction l with
  | nil => simp [insertPair]
  | cons y ys ih =>
      simp only [insertPair]
      split
      · simp only [List.mem_cons, ih]
        tauto
      · simp only [List.mem_cons]

theorem insertPair_pairwise (x : Nat × Nat) (l : List (Nat × Nat))
    (h : List.Pairwise (fun a b : Nat × Nat => a.1 ≤ b.1) l) :
    List.Pairwise (fun a b : Nat × Nat => a.1 ≤ b.1) (insertPair x l) := by
  induction l with
  | nil => simp [insertPair]
  | cons y ys ih =>
      rw [List.pairwise_cons] at h
      obtain ⟨hy, hys⟩ := h
      simp only [insertPair]
      split
      · rename_i hlt
        rw [List.pairwise_cons]
        refine ⟨?_, ih hys⟩
        intro z hz
        rw [insertPair_mem] at hz
        rcases hz with rfl | hz
        · omega
        · exact hy z hz
      · rename_i hge
        rw [List.pairwise_cons]
        refine ⟨?_, List.Pairwise.cons hy hys⟩
        intro z hz
        simp only [List.mem_cons] at hz
        rcases hz with rfl | hz
        · omega
        · have := hy z hz
          omega

theorem sortPairs_go_mem (a : Nat × Nat) :
    ∀ (l acc : List (Nat × Nat)),
      a ∈ l.foldl (fun acc x => insertPair x acc) acc ↔ a ∈ acc ∨ a ∈ l := by
  intro l
  induction l with
  | nil => simp
  | cons x xs ih =>
      intro acc
      simp only [List.foldl_cons]
      rw [ih, insertPair_mem]
      simp only [List.mem_cons]
      tauto

theorem sortPairs_mem (a : Nat × Nat) (l : List (Nat × Nat)) :
    a ∈ sortPairs l ↔ a ∈ l := by
  rw [sortPairs, sortPairs_go_mem]
  simp

theorem sortPairs_go_pairwise :
    ∀ (l acc : List (Nat × Nat)),
      List.Pairwise (fun a b : Nat × Nat => a.1 ≤ b.1) acc →
      List.Pairwise (fun a b : Nat × Nat => a.1 ≤ b.1)
        (l.foldl (fun acc x => insertPair x acc) acc) := by
  intro l
  induction l with
  | nil => intro acc h; exact h
  | cons x xs ih =>
      intro acc h
      simp only [List.foldl_cons]
      exact ih _ (insertPair_pairwise x acc h)

theorem sortPairs_pairwise (l : List (Nat × Nat)) :
    List.Pairwise (fun a b : Nat × Nat => a.1 ≤ b.1) (sortPairs l) :=
  sortPairs_go_pairwise l [] List.Pairwise.nil

/-- Full specification of the merging pass, by induction over the read
position: starting from a valid write pair `last` whose low bound is
minimal among the (sorted) remaining pairs, the output consists of valid
pairs, consecutive output pairs are separated by a gap of at least 2,
every output low bound is at least `last.1`, and the output covers
exactly the runes covered by `last` and the remaining pairs. -/
theorem mergePairs_spec :
    ∀ (ps : List (Nat × Nat)) (last : Nat × Nat),
      last.1 ≤ last.2 →
      (∀ p ∈ ps, p.1 ≤ p.2) →
      (∀ p ∈ ps, last.1 ≤ p.1) →
      List.Pairwise (fun a b : Nat × Nat => a.1 ≤ b.1) ps →
      (∀ q ∈ mergePairs last ps, q.1 ≤ q.2) ∧
      List.Chain' (fun a b : Nat × Nat => a.2 + 2 ≤ b.1) (mergePairs last ps) ∧
      (∀ q ∈ mergePairs last ps, last.1 ≤ q.1) ∧
      ∀ c : Nat, (∃ q ∈ mergePairs last ps, q.1 ≤ c ∧ c ≤ q.2) ↔
        (last.1 ≤ c ∧ c ≤ last.2) ∨ ∃ q ∈ ps, q.1 ≤ c ∧ c ≤ q.2 := by
  intro ps
  induction ps with
  | nil =>
      intro last hval _ _ _
      refine ⟨?_, ?_, ?_, ?_⟩
      · intro q hq
        simp only [mergePairs, List.mem_singleton] at hq
        exact hq ▸ hval
      · simp [mergePairs]
      · intro q hq
        simp only [mergePairs, List.mem_singleton] at hq
        exact hq ▸ Nat.le_refl _
      · intro c
        simp [mergePairs]
  | cons p ps ih =>
      intro last hval hvp hsort hpw
      rw [List.pairwise_cons] at hpw
      obtain ⟨hp_le, hpw'⟩ := hpw
      have hvp_p : p.1 ≤ p.2 := hvp p (List.mem_cons_self p ps)
      have hlp : last.1 ≤ p.1 := hsort p (List.mem_cons_self p ps)
      simp only [mergePairs]
      split
      · rename_i hcond
        obtain ⟨i1, i2, i3, i4⟩ :=
          ih (min p.1 last.1, max p.2 last.2) (by simp only; omega)
            (fun q hq => hvp q (List.mem_cons_of_mem _ hq))
            (fun q hq => by have := hp_le q hq; simp only; omega)
            hpw'
        refine ⟨i1, i2, ?_, ?_⟩
        · intro q hq
          have := i3 q hq
          simp only at this
          omega
        · intro c
          rw [i4 c]
          have hu : (min p.1 last.1 ≤ c ∧ c ≤ max p.2 last.2) ↔
              ((last.1 ≤ c ∧ c ≤ last.2) ∨ (p.1 ≤ c ∧ c ≤ p.2)) := by
            clear i1 i2 i3 i4 ih
            omega
          rw [hu, or_assoc]
          simp only [List.mem_cons, or_and_right, exists_or, exists_eq_left]
      · rename_i hcond
        have hgap : last.2 + 2 ≤ p.1 := by omega
        obtain ⟨i1, i2, i3, i4⟩ :=
          ih p hvp_p (fun q hq => hvp q (List.mem_cons_of_mem _ hq)) hp_le hpw'
        refine ⟨?_, ?_, ?_, ?_⟩
        · intro q hq
          rcases List.mem_cons.mp hq with rfl | hq
          · exact hval
          · exact i1 q hq
        · rw [List.chain'_cons']
          refine ⟨?_, i2⟩
          intro b hb
          have := i3 b (List.mem_of_mem_head? hb)
          omega
        · intro q hq
          rcases List.mem_cons.mp hq with rfl | hq
          · exact Nat.le_refl _
          · have := i3 q hq
            omega
        · intro c
          simp only [List.mem_cons, or_and_right, exists_or, exists_eq_left]
          rw [i4 c]

theorem chain_gap_strict (l : List (Nat × Nat)) (hval : ∀ q ∈ l, q.1 ≤ q.2)
    (h : List.Chain' (fun a b : Nat × Nat => a.2 + 2 ≤ b.1) l) :
    List.Chain' (fun a b : Nat × Nat => a.1 < b.1) l := by
  induction l with
  | nil => simp
  | cons a t ih =>
      rw [List.chain'_cons'] at h ⊢
      obtain ⟨h1, h2⟩ := h
      refine ⟨?_, ih (fun q hq => hval q (List.mem_cons_of_mem _ hq)) h2⟩
      intro b hb
      have := h1 b hb
      have := hval a (List.mem_cons_self a t)
      omega

/-- C5: given an input whose pairs each satisfy `low ≤ high`,
`simplifyCharset` returns pairs that are valid, sorted strictly ascending
by low bound, pairwise separated by a gap of at least 2 (hence disjoint
and non-adjacent), and covering exactly the same set of runes. -/
theorem simplifyCharset_invariant (l : List (Nat × Nat))
    (hv : ∀ q ∈ l, q.1 ≤ q.2) :
    (∀ q ∈ simplifyCharset l, q.1 ≤ q.2) ∧
    List.Chain' (fun a b : Nat × Nat => a.1 < b.1) (simplifyCharset l) ∧
    List.Chain' (fun a b : Nat × Nat => a.2 + 2 ≤ b.1) (simplifyCharset l) ∧
    ∀ c : Nat, (∃ q ∈ simplifyCharset l, q.1 ≤ c ∧ c ≤ q.2) ↔
      ∃ q ∈ l, q.1 ≤ c ∧ c ≤ q.2 := by
  unfold simplifyCharset
  cases hs : sortPairs l with
  | nil =>
      have hl : ∀ a : Nat × Nat, a ∈ l → False := by
        intro a ha
        have := (sortPairs_mem a l).mpr ha
        rw [hs] at this
        simp at this
      refine ⟨by simp, by simp, by simp, ?_⟩
      intro c
      constructor
      · rintro ⟨q, hq, -⟩
        simp at hq
      · rintro ⟨q, hq, -⟩
        exact absurd hq fun h => hl q h
  | cons x xs =>
      have hx_mem : ∀ a : Nat × Nat, a ∈ x :: xs → a ∈ l := by
        intro a ha
        exact (sortPairs_mem a l).mp (hs ▸ ha)
      have hpw : List.Pairwise (fun a b : Nat × Nat => a.1 ≤ b.1) (x :: xs) :=
        hs ▸ sortPairs_pairwise l
      rw [List.pairwise_cons] at hpw
      obtain ⟨hx_le, hxs_pw⟩ := hpw
      obtain ⟨i1, i2, i3, i4⟩ := mergePairs_spec xs x
        (hv x (hx_mem x (List.mem_cons_self x xs)))
        (fun q hq => hv q (hx_mem q (List.mem_cons_of_mem _ hq)))
        hx_le hxs_pw
      refine ⟨i1, chain_gap_strict _ i1 i2, i2, ?_⟩
      intro c
      rw [i4 c]
      constructor
      · rintro (⟨h1, h2⟩ | ⟨q, hq, h⟩)
        · exact ⟨x, hx_mem x (List.mem_cons_self x xs), h1, h2⟩
        · exact ⟨q, hx_mem q (List.mem_cons_of_mem _ hq), h⟩
      · rintro ⟨q, hq, h⟩
        have hq' : q ∈ x :: xs := hs ▸ (sortPairs_mem q l).mpr hq
        rcases List.mem_cons.mp hq' with rfl | hq''
        · exact Or.inl h
        · exact Or.inr ⟨q, hq'', h⟩

/-- Witness for C5 on the last Go test vector (`{a,f,b,c,d,e}`). -/
theorem simplifyCharset_invariant_witness :
    List.Chain' (fun a b : Nat × Nat => a.2 + 2 ≤ b.1)
      (simplifyCharset [(97, 102), (98, 99), (100, 101)]) :=
  (simplifyCharset_invariant [(97, 102), (98, 99), (100, 101)] (by decide)).2.2.1

theorem chain_gap_pairwise :
    ∀ l : List (Nat × Nat), (∀ q ∈ l, q.1 ≤ q.2) →
      List.Chain' (fun a b : Nat × Nat => a.2 + 2 ≤ b.1) l →
      List.Pairwise (fun a b : Nat × Nat => a.1 < b.1) l := by
  intro l
  induction l with
  | nil => intro _ _; exact .nil
  | cons a t ih =>
      intro hval hch
      rw [List.chain'_cons'] at hch
      obtain ⟨hhd, hch'⟩ := hch
      have hpw := ih (fun q hq => hval q (List.mem_cons_of_mem _ hq)) hch'
      rw [List.pairwise_cons]
      refine ⟨?_, hpw⟩
      intro b hb
      cases t with
      | nil => simp at hb
      | cons h0 t0 =>
          have hgap : a.2 + 2 ≤ h0.1 := hhd h0 rfl
          have hav : a.1 ≤ a.2 := hval a (List.mem_cons_self a _)
          rcases List.mem_cons.mp hb with rfl | hb'
          · omega
          · rw [List.pairwise_cons] at hpw
            have := hpw.1 b hb'
            omega

theorem insertPair_of_lt (x : Nat × Nat) :
    ∀ acc : List (Nat × Nat), (∀ y ∈ acc, y.1 < x.1) →
      insertPair x acc = acc ++ [x] := by
  intro acc
  induction acc with
  | nil => intro _; rfl
  | cons y ys ih =>
      intro h
      have hy := h y (List.mem_cons_self y ys)
      simp only [insertPair, if_pos hy, List.cons_append]
      rw [ih fun z hz => h z (List.mem_cons_of_mem _ hz)]

theorem sortPairs_go_id :
    ∀ l acc : List (Nat × Nat),
      List.Pairwise (fun a b : Nat × Nat => a.1 < b.1) (acc ++ l) →
      l.foldl (fun acc x => insertPair x acc) acc = acc ++ l := by
  intro l
  induction l with
  | nil => intro acc _; simp
  | cons x xs ih =>
      intro acc hpw
      simp only [List.foldl_cons]
      have hx : ∀ y ∈ acc, y.1 < x.1 := by
        intro y hy
        exact (List.pairwise_append.mp hpw).2.2 y hy x (List.mem_cons_self x xs)
      rw [insertPair_of_lt x acc hx]
      rw [show acc ++ x :: xs = (acc ++ [x]) ++ xs by simp] at hpw
      rw [ih (acc ++ [x]) hpw]
      simp

theorem sortPairs_of_pairwise (l : List (Nat × Nat))
    (h : List.Pairwise (fun a b : Nat × Nat => a.1 < b.1) l) :
    sortPairs l = l := by
  have := sortPairs_go_id l [] (by simpa using h)
  simpa [sortPairs] using this

theorem mergePairs_of_gapped :
    ∀ (ps : List (Nat × Nat)) (x : Nat × Nat),
      x.1 ≤ x.2 → (∀ q ∈ ps, q.1 ≤ q.2) →
      List.Chain' (fun a b : Nat × Nat => a.2 + 2 ≤ b.1) (x :: ps) →
      mergePairs x ps = x :: ps := by
  intro ps
  induction ps with
  | nil => intro x _ _ _; rfl
  | cons p ps ih =>
      intro x hx hv hch
      rw [List.chain'_cons] at hch
      obtain ⟨hgap, hch'⟩ := hch
      have hvp : p.1 ≤ p.2 := hv p (List.mem_cons_self p ps)
      simp only [mergePairs]
      rw [if_neg (by omega)]
      rw [ih p hvp (fun q hq => hv q (List.mem_cons_of_mem _ hq)) hch']

/-- An already-normalized charset (valid pairs, gaps of at least 2) is a
fixed point of `simplifyCharset`. -/
theorem simplifyCharset_of_normalized (out : List (Nat × Nat))
    (hval : ∀ q ∈ out, q.1 ≤ q.2)
    (hgap : List.Chain' (fun a b : Nat × Nat => a.2 + 2 ≤ b.1) out) :
    simplifyCharset out = out := by
  have hpw := chain_gap_pairwise out hval hgap
  unfold simplifyCharset
  rw [sortPairs_of_pairwise out hpw]
  cases out with
  | nil => rfl
  | cons x xs =>
      exact mergePairs_of_gapped xs x
        (hval x (List.mem_cons_self x xs))
        (fun q hq => hval q (List.mem_cons_of_mem _ hq)) hgap

/-- C6: `simplifyCharset` is idempotent on valid inputs, and merges
adjacent ranges: the pair list for `[a,b,c,c]` (range `a`-`b` plus the
singleton `c`) simplifies to the single range `[a,c]`
(97, 98, 99 being the code points of `a`, `b`, `c`). -/
theorem simplifyCharset_idempotent (l : List (Nat × Nat))
    (hv : ∀ q ∈ l, q.1 ≤ q.2) :
    simplifyCharset (simplifyCharset l) = simplifyCharset l ∧
    simplifyCharset [(97, 98), (99, 99)] = [(97, 99)] := by
  obtain ⟨i1, -, igap, -⟩ := simplifyCharset_invariant l hv
  exact ⟨simplifyCharset_of_normalized _ i1 igap, by decide⟩

/-- Witness for C6 on the Go test vector `{a,a,c,c,d,d}`. -/
theorem simplifyCharset_idempotent_witness :
    simplifyCharset (simplifyCharset [(97, 97), (99, 99), (100, 100)]) =
      simplifyCharset [(97, 97), (99, 99), (100, 100)] :=
  (simplifyCharset_idempotent [(97, 97), (99, 99), (100, 100)] (by decide)).1

/-! ## Route table and dispatch queue (`mux.go`) -/

/-- A registered route (the `route` struct): a method string (`[]`
matches any method), the compiled matcher, and the ordered handler chain.
Handlers are opaque to this core and identified by `Nat` labels. -/
structure Route where
  method : Str
  fragments : List Fragment
  handlers : List Nat
  deriving DecidableEq, Repr

/-- `route.check`: the method must equal the route's method unless the
route's method is empty; then the compiled matcher runs on the path.
(The capture list is kept ordered; `mux.go` additionally folds it into a
last-write-wins map for `Param`, which no claim depends on.) -/
def routeCheck (r : Route) (method path : Str) : Option Buf :=
  if method ≠ r.method ∧ r.method ≠ [] then none
  else matcherMatch r.fragments path []

/-- The routing state of one request (the `queue` struct): remaining
handlers and captured parameters of the current route, plus the
still-untried tail of the route table. -/
structure Queue where
  handlers : List Nat
  params : Buf
  routes : List Route
  deriving DecidableEq, Repr

/-- What one call to `queue.serveNext` does: invoke a single handler,
write the 404 response, or hit the out-of-range panic that indexing
`r.handlers[0]` on an empty chain would raise (unreachable for routes
built through registration, which rejects empty handler lists). -/
inductive Outcome
  | invoked (h : Nat)
  | notFound
  | panicked
  deriving DecidableEq, Repr

/-- The route-scanning loop of `queue.serveNext`: pop routes until the
first whose `check` passes, adopt its parameters and the tail of its
handler chain, and invoke its first handler; when the routes run out,
respond 404 (keeping the previous parameters, which the Go code leaves
untouched on that path). -/
def scanRoutes (params0 : Buf) (method path : Str) : List Route → Outcome × Queue
  | [] => (.notFound, ⟨[], params0, []⟩)
  | r :: rs =>
      match routeCheck r method path with
      | none => scanRoutes params0 method path rs
      | some params =>
          match r.handlers with
          | [] => (.panicked, ⟨[], params, rs⟩)
          | h :: hs => (.invoked h, ⟨hs, params, rs⟩)

/-- `queue.serveNext`: pop the current route's next handler if one
remains, otherwise scan the remaining routes. -/
def serveNext (q : Queue) (method path : Str) : Outcome × Queue :=
  match q.handlers with
  | h :: hs => (.invoked h, ⟨hs, q.params, q.routes⟩)
  | [] => scanRoutes q.params method path q.routes

/-- Termination measure of a queue: handlers still queued for the current
route plus all handlers of the untried routes. -/
def Queue.measure (q : Queue) : Nat :=
  q.handlers.length + (q.routes.map fun r => r.handlers.length).sum

theorem scanRoutes_invoked_measure {params0 : Buf} {method path : Str}
    {routes : List Route} {h : Nat} {q' : Queue}
    (hs : scanRoutes params0 method path routes = (.invoked h, q')) :
    q'.measure < (routes.map fun r => r.handlers.length).sum := by
  induction routes with
  | nil => simp [scanRoutes] at hs
  | cons r rs ih =>
      simp only [scanRoutes] at hs
      split at hs
      · have := ih hs
        simp only [List.map_cons, List.sum_cons]
        omega
      · split at hs
        · simp at hs
        · rw [Prod.mk.injEq] at hs
          obtain ⟨-, hq⟩ := hs
          subst hq
          rename_i h0 hs0 heq
          simp only [Queue.measure, List.map_cons, List.sum_cons, heq]
          simp only [List.length_cons]
          omega

/-- Invoking a handler strictly decreases the queue measure. -/
theorem serveNext_invoked_measure {q : Queue} {method path : Str} {h : Nat}
    {q' : Queue} (hs : serveNext q method path = (.invoked h, q')) :
    q'.measure < q.measure := by
  unfold serveNext at hs
  cases hq : q.handlers with
  | cons h0 hs0 =>
      rw [hq] at hs
      rw [Prod.mk.injEq] at hs
      obtain ⟨-, hq'⟩ := hs
      subst hq'
      simp [Queue.measure, hq]
  | nil =>
      rw [hq] at hs
      have := scanRoutes_invoked_measure hs
      simp only [Queue.measure, hq, List.length_nil] at this ⊢
      omega

/-- Number of handler invocations when every invoked handler immediately
calls the continuation (`Next`) — the longest possible dispatch chain. -/
def chainCount (q : Queue) (method path : Str) : Nat :=
  match hs : serveNext q method path with
  | (.invoked _, q') => chainCount q' method path + 1
  | (.notFound, _) => 0
  | (.panicked, _) => 0
termination_by q.measure
decreasing_by exact serveNext_invoked_measure hs

/-- With only non-empty handler chains in the table, the route scan either
invokes a handler or answers 404 — never the out-of-range panic. -/
theorem scanRoutes_total (params0 : Buf) (m p : Str) :
    ∀ routes : List Route, (∀ r ∈ routes, r.handlers ≠ []) →
      (∃ h q', scanRoutes params0 m p routes = (.invoked h, q')) ∨
      ∃ q', scanRoutes params0 m p routes = (.notFound, q') := by
  intro routes
  induction routes with
  | nil => intro _; exact Or.inr ⟨⟨[], params0, []⟩, rfl⟩
  | cons r rs ih =>
      intro hwf
      simp only [scanRoutes]
      cases hc : routeCheck r m p with
      | none =>
          exact ih fun r' hr' => hwf r' (List.mem_cons_of_mem r hr')
      | some params =>
          cases hh : r.handlers with
          | nil => exact absurd hh (hwf r (List.mem_cons_self r rs))
          | cons h0 hs0 => exact Or.inl ⟨h0, ⟨hs0, params, rs⟩, rfl⟩

theorem chainCount_le_aux (m p : Str) :
    ∀ (n : Nat) (q : Queue), q.measure ≤ n → chainCount q m p ≤ q.measure := by
  intro n
  induction n with
  | zero =>
      intro q hq
      unfold chainCount
      split
      · rename_i h q' hs
        have := serveNext_invoked_measure hs
        omega
      · omega
      · omega
  | succ n ih =>
      intro q hq
      unfold chainCount
      split
      · rename_i h q' hs
        have hd := serveNext_invoked_measure hs
        have := ih q' (by omega)
        omega
      · omega
      · omega

/-- C10: every dispatch terminates after finitely many handler
invocations.  Each `serveNext` call producing a handler invocation
strictly decreases the queue measure (handlers remaining in the current
route plus all handlers of untried routes); with the well-formedness
guaranteed by registration (no empty handler chains) each call either
invokes exactly one handler or writes the 404 response; and even the
chain in which every handler calls `Next` performs at most `measure q`
invocations — for a fresh queue, the total number of registered
handlers. -/
theorem dispatch_terminates :
    (∀ (q : Queue) (m p : Str) (h : Nat) (q' : Queue),
        serveNext q m p = (.invoked h, q') → q'.measure < q.measure) ∧
    (∀ (q : Queue) (m p : Str), (∀ r ∈ q.routes, r.handlers ≠ []) →
        (∃ h q', serveNext q m p = (.invoked h, q')) ∨
        ∃ q', serveNext q m p = (.notFound, q')) ∧
    ∀ (q : Queue) (m p : Str), chainCount q m p ≤ q.measure := by
  refine ⟨fun q m p h q' hs => serveNext_invoked_measure hs, ?_, ?_⟩
  · intro q m p hwf
    unfold serveNext
    cases hq : q.handlers with
    | cons h0 hs0 => exact Or.inl ⟨h0, ⟨hs0, q.params, q.routes⟩, rfl⟩
    | nil => exact scanRoutes_total q.params m p q.routes hwf
  · intro q m p
    exact chainCount_le_aux m p q.measure q (Nat.le_refl _)

/-- Witness for C10 on a one-route table. -/
theorem dispatch_terminates_witness :
    Queue.measure ⟨[], [], []⟩ <
      Queue.measure ⟨[], [], [⟨"GET".data, [.literal "/foo".data 4], [7]⟩]⟩ ∧
    ((∃ h q', serveNext ⟨[], [], [⟨"GET".data, [.literal "/foo".data 4], [7]⟩]⟩
        "GET".data "/foo".data = (.invoked h, q')) ∨
      ∃ q', serveNext ⟨[], [], [⟨"GET".data, [.literal "/foo".data 4], [7]⟩]⟩
        "GET".data "/foo".data = (.notFound, q')) :=
  ⟨dispatch_terminates.1 ⟨[], [], [⟨"GET".data, [.literal "/foo".data 4], [7]⟩]⟩
      "GET".data "/foo".data 7 ⟨[], [], []⟩ (by decide),
   dispatch_terminates.2.1 ⟨[], [], [⟨"GET".data, [.literal "/foo".data 4], [7]⟩]⟩
      "GET".data "/foo".data (by decide)⟩

theorem scanRoutes_first {m p : Str} (params0 : Buf) :
    ∀ (rs1 : List Route) (r : Route) (rs2 : List Route) (params : Buf)
      (h0 : Nat) (hs : List Nat),
      (∀ r' ∈ rs1, routeCheck r' m p = none) →
      routeCheck r m p = some params →
      r.handlers = h0 :: hs →
      scanRoutes params0 m p (rs1 ++ r :: rs2) = (.invoked h0, ⟨hs, params, rs2⟩) := by
  intro rs1
  induction rs1 with
  | nil =>
      intro r rs2 params h0 hs _ hc hh
      simp only [List.nil_append, scanRoutes, hc, hh]
  | cons r' rs1 ih =>
      intro r rs2 params h0 hs hnone hc hh
      have h1 : routeCheck r' m p = none := hnone r' (List.mem_cons_self r' rs1)
      simp only [List.cons_append, scanRoutes, h1]
      exact ih r rs2 params h0 hs
        (fun r'' hr'' => hnone r'' (List.mem_cons_of_mem r' hr'')) hc hh

/-- C2: dispatch tries routes in registration order and the first route
whose method matches (exact equality, or registered method `""`) and
whose pattern matches the path serves the request (general conjunct: any
prefix of non-matching routes is skipped and the first full match's first
handler is invoked).  Concretely, with `GET /foo` registered before
`GET /{id}`, a `GET /foo` request invokes the `/foo` route's handler —
even though the parameter route would also have matched the path. -/
theorem first_match_serves :
    (∀ (m p : Str) (rs1 : List Route) (r : Route) (rs2 : List Route)
        (params : Buf) (h0 : Nat) (hs : List Nat),
        (∀ r' ∈ rs1, routeCheck r' m p = none) →
        routeCheck r m p = some params →
        r.handlers = h0 :: hs →
        serveNext ⟨[], [], rs1 ++ r :: rs2⟩ m p = (.invoked h0, ⟨hs, params, rs2⟩)) ∧
    compileMatcher "/foo".data = .ok [.literal "/foo".data 4] ∧
    compileMatcher "/\x7bid\x7d".data =
      .ok [.literal "/".data 1, .exclusive "id".data "/".data] ∧
    routeCheck ⟨"GET".data, [.literal "/".data 1, .exclusive "id".data "/".data], [2]⟩
        "GET".data "/foo".data = some [("id".data, "foo".data)] ∧
    serveNext ⟨[], [], [⟨"GET".data, [.literal "/foo".data 4], [1]⟩,
        ⟨"GET".data, [.literal "/".data 1, .exclusive "id".data "/".data], [2]⟩]⟩
        "GET".data "/foo".data =
      (.invoked 1, ⟨[], [],
        [⟨"GET".data, [.literal "/".data 1, .exclusive "id".data "/".data], [2]⟩]⟩) := by
  refine ⟨?_, by decide, by decide, by decide, by decide⟩
  intro m p rs1 r rs2 params h0 hs hnone hc hh
  simp only [serveNext]
  exact scanRoutes_first [] rs1 r rs2 params h0 hs hnone hc hh

/-- Witness for C2: the general first-match conjunct applied to a table
whose first route does not match. -/
theorem first_match_serves_witness :
    serveNext ⟨[], [], [⟨"POST".data, [.literal "/foo".data 4], [9]⟩,
        ⟨"GET".data, [.literal "/foo".data 4], [1]⟩]⟩ "GET".data "/foo".data =
      (.invoked 1, ⟨[], [], []⟩) :=
  first_match_serves.1 "GET".data "/foo".data
    [⟨"POST".data, [.literal "/foo".data 4], [9]⟩]
    ⟨"GET".data, [.literal "/foo".data 4], [1]⟩ [] [] 1 []
    (by decide) (by decide) rfl

/-! ## The trie-based Mux variant (historical snapshot with 405 support) -/

/-- A handler entry of the trie variant: URL parameter names per path
fragment (`[]` meaning "not a parameter") and the handler, labelled by a
`Nat`. -/
structure TEntry where
  p : List Str
  h : Nat
  deriving DecidableEq, Repr

/-- A trie node: method-to-entry map, literal children keyed by the next
path fragment, and the parameter/wildcard child.  The Go maps are
modelled as association lists with distinct keys. -/
inductive TNode where
  | mk (m : List (Str × TEntry)) (c : List (Str × TNode)) (w : Option TNode)

def TNode.m : TNode → List (Str × TEntry)
  | .mk m _ _ => m

def TNode.c : TNode → List (Str × TNode)
  | .mk _ c _ => c

def TNode.w : TNode → Option TNode
  | .mk _ _ w => w

/-- Association-list lookup, standing in for Go map indexing. -/
def lookupA {α : Type} : List (Str × α) → Str → Option α
  | [], _ => none
  | (k, v) :: rest, key => if k = key then some v else lookupA rest key

/-- Merging a node's method map into the search accumulator:
`if out[m] == nil { out[m] = e }` — an already-present method wins. -/
def mergeMethods (out : List (Str × TEntry)) : List (Str × TEntry) →
    List (Str × TEntry)
  | [] => out
  | (k, e) :: rest =>
      match lookupA out k with
      | some _ => mergeMethods out rest
      | none => mergeMethods (out ++ [(k, e)]) rest

/-- `node.search`: at the end of the path, merge this node's methods;
otherwise recurse into the literal child for the fragment and, for
non-empty fragments, also into the wildcard child. -/
def searchNode : List Str → TNode → List (Str × TEntry) → List (Str × TEntry)
  | [], n, out => mergeMethods out n.m
  | frag :: rest, n, out =>
      let out1 :=
        match lookupA n.c frag with
        | some child => searchNode rest child out
        | none => out
      if frag ≠ [] then
        match n.w with
        | some wn => searchNode rest wn out1
        | none => out1
      else out1

/-- The fragment filter of `split`: keep a fragment when it is non-empty
or is the last one. -/
def filterFrags : List Str → List Str
  | [] => []
  | [x] => [x]
  | x :: xs => if x = [] then filterFrags xs else x :: filterFrags xs

/-- `split`: cut the path on `/` and filter the fragments. -/
def splitPath (s : Str) : List Str :=
  filterFrags (s.splitOn '/')

/-- Lexicographic string order (`sort.Strings` uses byte order, which for
valid UTF-8 equals code-point order). -/
def strLe : Str → Str → Bool
  | [], _ => true
  | _ :: _, [] => false
  | a :: as, b :: bs => if a = b then strLe as bs else decide (a < b)

def insertStr (x : Str) : List Str → List Str
  | [] => [x]
  | y :: ys => if strLe x y then x :: y :: ys else y :: insertStr x ys

/-- `sort.Strings`: ascending sort of the collected method names. -/
def sortStrs (l : List Str) : List Str :=
  l.foldr insertStr []

/-- Result of the trie variant's `ServeHTTP`: 404, 405 with the value of
the `Allow` header, or dispatch to a handler entry. -/
inductive TrieOutcome
  | notFound
  | methodNotAllowed (allow : Str)
  | served (e : TEntry)
  deriving DecidableEq, Repr

/-- `Mux.ServeHTTP` of the trie variant: split the path, search the trie
for all method entries matching it; 404 when none, 405 with an `Allow`
header listing the sorted methods when the request method has no entry,
otherwise serve the entry. -/
def trieServe (root : TNode) (method path : Str) : TrieOutcome :=
  let pattern := splitPath path
  let methods := searchNode pattern root []
  if methods = [] then .notFound
  else
    match lookupA methods method with
    | some e => .served e
    | none =>
        .methodNotAllowed
          (List.intercalate ", ".data (sortStrs (methods.map Prod.fst)))

/-- C4 counterexample: the queue-based dispatch of `mux.go` answers 404,
not 405, for a request whose path matches a registered route but whose
method does not: route `GET /foo`, request `HEAD /foo`. -/
theorem method_mismatch_404_cex :
    matcherMatch [.literal "/foo".data 4] "/foo".data [] = some [] ∧
    serveNext ⟨[], [], [⟨"GET".data, [.literal "/foo".data 4], [1]⟩]⟩
        "HEAD".data "/foo".data = (.notFound, ⟨[], [], []⟩) := by
  refine ⟨by decide, by decide⟩

/-- C4 amended: the queue-based dispatch (`mux.go`) responds 404 whenever
no route passes `check` — a method mismatch on a path-matching route
included (first conjunct); only the trie-variant `ServeHTTP`
(historical snapshot) yields 405 for a path with entries but no entry for
the request method, with an `Allow` header listing the sorted union of
methods registered for that path (second conjunct), and 404 when the path
has no entries at all (third conjunct). -/
theorem method_mismatch_dispatch (routes : List Route) (m p : Str) (b : Buf)
    (root : TNode)
    (hall : ∀ r ∈ routes, routeCheck r m p = none)
    (hne : searchNode (splitPath p) root [] ≠ [])
    (hmiss : lookupA (searchNode (splitPath p) root []) m = none)
    (root' : TNode) (p' : Str)
    (hempty : searchNode (splitPath p') root' [] = []) :
    serveNext ⟨[], b, routes⟩ m p = (.notFound, ⟨[], b, []⟩) ∧
    trieServe root m p =
      .methodNotAllowed (List.intercalate ", ".data
        (sortStrs ((searchNode (splitPath p) root []).map Prod.fst))) ∧
    trieServe root' m p' = .notFound := by
  refine ⟨?_, ?_, ?_⟩
  · simp only [serveNext]
    induction routes with
    | nil => rfl
    | cons r rs ih =>
        have h1 : routeCheck r m p = none := hall r (List.mem_cons_self r rs)
        simp only [scanRoutes, h1]
        exact ih fun r' hr' => hall r' (List.mem_cons_of_mem r hr')
  · simp only [trieServe, hmiss, if_neg hne]
  · simp [trieServe, hempty]

/-- Witness for C4's amended theorem: route table `[GET /foo]` and the
trie holding a single `GET` entry under `foo`, both asked for
`HEAD /foo`; the empty trie for the 404 conjunct. -/
theorem method_mismatch_dispatch_witness :
    serveNext ⟨[], [], [⟨"GET".data, [.literal "/foo".data 4], [1]⟩]⟩
        "HEAD".data "/foo".data = (.notFound, ⟨[], [], []⟩) ∧
    trieServe (.mk [] [("foo".data, .mk [("GET".data, ⟨[[]], 1⟩)] [] none)] none)
        "HEAD".data "/foo".data =
      .methodNotAllowed (List.intercalate ", ".data
        (sortStrs ((searchNode (splitPath "/foo".data)
          (.mk [] [("foo".data, .mk [("GET".data, ⟨[[]], 1⟩)] [] none)] none)
          []).map Prod.fst))) ∧
    trieServe (.mk [] [] none) "HEAD".data "/bar".data = .notFound :=
  method_mismatch_dispatch [⟨"GET".data, [.literal "/foo".data 4], [1]⟩]
    "HEAD".data "/foo".data []
    (.mk [] [("foo".data, .mk [("GET".data, ⟨[[]], 1⟩)] [] none)] none)
    (by decide) (by decide) (by decide)
    (.mk [] [] none) "/bar".data (by decide)

/-- C8: pattern compilation fails with exactly the specified error for
each of the four inputs, producing no compiled matcher. -/
theorem compile_error_cases :
    compileMatcher "".data = .error .emptyPattern ∧
    compileMatcher "/*/foo".data = .error .illegalWildcard ∧
    compileMatcher "/\x7bfoo".data = .error .missingRBrace ∧
    compileMatcher "/\x7bfoo[z-a]\x7d".data = .error .impossibleRange := by
  refine ⟨by decide, by decide, by decide, by decide⟩

end Robo
